import Mathlib

/-!
Verification of the phrase-matching search engine of the cine-shazam backend.

The definitions below are shallow embeddings of the Python sources:
* `app/services/mongodb_search.py` — `MongoDBSubtitleSearch`
  (`search_subtitles`, `_calculate_match_score`, `search_multiple_queries`),
* `app/services/multi_search_strategy.py` — `MultiSearchStrategy._deduplicate_results`,
* `app/services/speech_to_text.py` — `SpeechToTextService.extract_phrases`.

Strings are modelled as `List Char`; Python floats are modelled by exact
rationals `ℚ` (all scores in the code are ratios of small integers, and the
fractional comparison `word_matches >= len(query_words) * 0.6` agrees with the
exact rational comparison for every realistic token count); Python exceptions
are modelled by `Except`.
-/

/-- The characters Python's `str.split()` (and the regex class `\s`)
treat as whitespace. -/
def pyIsSpace (c : Char) : Bool :=
  c = ' ' || c = '\t' || c = '\n' || c = '\r' || c = '\x0b' || c = '\x0c'

/-- Lowercasing of a text, modelling Python's `str.lower()` on ASCII data. -/
def pyLowerL (s : List Char) : List Char :=
  s.map Char.toLower

/-- `leadsWith q t` is true when `t` starts with `q`. -/
def leadsWith : List Char → List Char → Bool
  | [], _ => true
  | _ :: _, [] => false
  | c :: q, d :: t => c = d && leadsWith q t

/-- Index of the first occurrence of `q` inside `t`, if any: the semantics of
Python's `t.find(q)` (and `q in t` is `(findSub q t).isSome`). -/
def findSub (q : List Char) : List Char → Option Nat
  | [] => if leadsWith q [] then some 0 else none
  | c :: t => if leadsWith q (c :: t) then some 0 else (findSub q t).map (· + 1)

/-- Scanner for `splitWs`: `cur` holds the characters of the current token in
reverse order. -/
def splitWsAux : List Char → List Char → List (List Char)
  | cur, [] => if cur = [] then [] else [cur.reverse]
  | cur, c :: cs =>
    if pyIsSpace c then
      if cur = [] then splitWsAux [] cs else cur.reverse :: splitWsAux [] cs
    else splitWsAux (c :: cur) cs

/-- Whitespace tokenisation dropping empty tokens: Python's `str.split()`
with no argument. -/
def splitWs (s : List Char) : List (List Char) :=
  splitWsAux [] s

/-- Join a token list with single spaces: Python's `' '.join(...)`. -/
def joinSpace (ws : List (List Char)) : List Char :=
  List.intercalate [' '] ws

/-- A regex word character (`\w` over ASCII data): letters, digits, underscore. -/
def isWordChar (c : Char) : Bool :=
  c.isAlphanum || c = '_'

/-- `re.sub(r'\s+', ' ', s).strip()`: collapse whitespace runs to single
spaces and trim the ends. -/
def collapseWs (s : List Char) : List Char :=
  joinSpace (splitWs s)

/-- The normalisation applied inside `search_subtitles` (lines 285–288):
`re.sub(r'[^\w\s]', ' ', s)` followed by whitespace collapsing and stripping. -/
def pyNormalize (s : List Char) : List Char :=
  collapseWs (s.map (fun c => if isWordChar c || pyIsSpace c then c else ' '))

/-- `MongoDBSubtitleSearch._calculate_match_score` (mongodb_search.py
lines 375–396), translated clause by clause from the Python source. -/
def calcMatchScore (query text : List Char) : ℚ :=
  if text = [] then 0
  else if (findSub query text).isSome then
    1 + (1 - (((findSub query text).getD 0 : Nat) : ℚ) / (text.length : ℚ))
  else
    let words := splitWs query
    let text_words := splitWs text
    let matchCount := (words.filter (fun w => text_words.contains w)).length
    if words = [] then 0 else (matchCount : ℚ) / (words.length : ℚ)

/-- A MongoDB `movie_subtitles` document (the fields the search engine reads,
with the types the ETL step writes). `text_lower` and `subtitle_text` are
lists of characters because the engine computes on them. -/
structure Doc where
  movie_title : String
  year : String
  text_lower : List Char
  subtitle_text : String
  imdb_id : String
  genres : List String
  overview : String
  start_time : ℚ
  end_time : ℚ
  vote_average : ℚ
  vote_count : Int
deriving Repr

/-- One entry of the result list built by `search_subtitles` (lines 349–362). -/
structure MatchResult where
  movie_title : String
  year : String
  subtitle_text : String
  match_score : ℚ
  source : String
  imdb_id : String
  genres : List String
  overview : String
  start_time : ℚ
  end_time : ℚ
  vote_average : ℚ
  vote_count : Int
deriving Repr

/-- The result dictionary built for one deduplicated document
(mongodb_search.py lines 346–362). -/
def mkResult (query_lower : List Char) (d : Doc) : MatchResult :=
  { movie_title := d.movie_title
    year := d.year
    subtitle_text := d.subtitle_text
    match_score := calcMatchScore query_lower d.text_lower
    source := "mongodb"
    imdb_id := d.imdb_id
    genres := d.genres
    overview := d.overview
    start_time := d.start_time
    end_time := d.end_time
    vote_average := d.vote_average
    vote_count := d.vote_count }

/-- MongoDB's `cursor.limit(n)`: `n = 0` means no limit at all. -/
def mongoLimit (n : Nat) (l : List α) : List α :=
  if n = 0 then l else l.take n

/-- The body of the Strategy-3 scan loop (mongodb_search.py lines 280–316):
the `_match_score` this document gets, or `none` when the document is not
accepted as a candidate.  The three branches are Tier A (normalized
containment, bonus `+2.0`), Tier A (raw lowercase containment, bonus `+1.5`)
and Tier B (word overlap of at least 60%, no bonus). -/
def tierScore (query_lower : List Char) (d : Doc) : Option ℚ :=
  let text_lower := pyLowerL d.text_lower
  let normalized_text := pyNormalize text_lower
  let normalized_query := pyNormalize query_lower
  let query_words := splitWs query_lower
  if (findSub normalized_query normalized_text).isSome then
    let position := (findSub normalized_query normalized_text).getD 0
    some ((1 - (position : ℚ) / (max normalized_text.length 1 : ℚ)) +
      (normalized_query.length : ℚ) / (max normalized_text.length 1 : ℚ) + 2)
  else if (findSub query_lower text_lower).isSome then
    let position := (findSub query_lower text_lower).getD 0
    some ((1 - (position : ℚ) / (max text_lower.length 1 : ℚ)) +
      (query_lower.length : ℚ) / (max text_lower.length 1 : ℚ) + 3/2)
  else if query_words.length > 1 then
    let word_matches := (query_words.filter
      (fun w => (findSub w text_lower).isSome)).length
    if ((query_words.length : ℚ) * (3/5) ≤ (word_matches : ℚ)) then
      some ((word_matches : ℚ) / (query_words.length : ℚ))
    else none
  else none

/-- Tier A and Tier B of the Strategy-3 scan, over the first `limit * 100`
documents of the corpus in stable `_id` order (line 275), paired with their
`_match_score`. -/
def tierAB (query_lower : List Char) (docs : List Doc) (limit : Nat) :
    List (Doc × ℚ) :=
  (mongoLimit (limit * 100) docs).filterMap
    (fun d => (tierScore query_lower d).map (fun s => (d, s)))

/-- Descending comparison on `_match_score` used by
`results.sort(key=lambda x: x.get('_match_score', 0), reverse=True)`. -/
def pairGe (a b : Doc × ℚ) : Bool :=
  decide (b.2 ≤ a.2)

/-- `list.sort(..., reverse=True)` on the scored candidates: a stable
descending sort, like Python's. -/
def sortPairs (l : List (Doc × ℚ)) : List (Doc × ℚ) :=
  l.mergeSort pairGe

/-- Case-insensitive title match of Strategy 4
(`{"movie_title": {"$regex": query_lower, "$options": "i"}}`, line 326).
The `$regex` operator is modelled as literal substring search: the queries
the engine sends contain no regex metacharacters, and the `"i"` option
together with an already-lowercased query makes it a case-insensitive
substring test. -/
def titleMatches (query_lower : List Char) (d : Doc) : Bool :=
  (findSub query_lower (pyLowerL d.movie_title.data)).isSome

/-- Strategies 3 and 4 of `search_subtitles` (lines 269–329): the raw
candidate documents handed to the aggregation pass, in order. -/
def searchRaw (query_lower : List Char) (docs : List Doc) (limit : Nat) :
    List Doc :=
  let results := ((sortPairs (tierAB query_lower docs limit)).take
    (limit * 2)).map Prod.fst
  if results.isEmpty then
    if (splitWs query_lower).length ≤ 3 then
      mongoLimit limit (docs.filter (titleMatches query_lower))
    else []
  else results

/-- The aggregation loop of `search_subtitles` (lines 336–364): walk the raw
candidates in order, skip documents whose `(movie_title, year)` key was
already seen or equals `('Unknown', 'Unknown')`, and build the result entry
for the survivors. -/
def processAux (query_lower : List Char) (seen : List (String × String)) :
    List Doc → List MatchResult
  | [] => []
  | d :: ds =>
    let movie_key := (d.movie_title, d.year)
    if movie_key ∉ seen ∧ movie_key ≠ ("Unknown", "Unknown") then
      mkResult query_lower d :: processAux query_lower (movie_key :: seen) ds
    else
      processAux query_lower seen ds

/-- Descending lexicographic comparison on `(match_score, vote_count)` used by
`processed_results.sort(key=lambda x: (x['match_score'], x['vote_count']),
reverse=True)` (line 367). -/
def resultGe (a b : MatchResult) : Bool :=
  decide (b.match_score < a.match_score) ||
    (decide (b.match_score = a.match_score) && decide (b.vote_count ≤ a.vote_count))

/-- The final sort of the per-query aggregation: stable descending by
`(match_score, vote_count)`. -/
def sortByScoreVote (rs : List MatchResult) : List MatchResult :=
  rs.mergeSort resultGe

/-- `MongoDBSubtitleSearch.search_subtitles` (lines 214–373).  `connected`
models the `_connected` flag after `_connect`; `fetch` models the collection
reads, with `Except.error` standing for a raised exception, which the
enclosing `try`/`except` of the Python code converts to `[]`. -/
def search_subtitles (connected : Bool) (fetch : Except String (List Doc))
    (query : List Char) (limit : Nat) : List MatchResult :=
  if !connected then []
  else
    match fetch with
    | .error _ => []
    | .ok docs =>
      let query_lower := pyLowerL query
      let processed := processAux query_lower [] (searchRaw query_lower docs limit)
      (sortByScoreVote processed).take limit

/-- The deduplication loop shared verbatim by
`MongoDBSubtitleSearch.search_multiple_queries` (mongodb_search.py lines
408–416) and `MultiSearchStrategy._deduplicate_results`
(multi_search_strategy.py lines 32–43): keep a result when its
`(movie_title, year)` key is new and differs from `('Unknown', 'Unknown')`. -/
def dedupAux (seen : List (String × String)) :
    List MatchResult → List MatchResult
  | [] => []
  | r :: rs =>
    let key := (r.movie_title, r.year)
    if key ∉ seen ∧ key ≠ ("Unknown", "Unknown") then
      r :: dedupAux (key :: seen) rs
    else
      dedupAux seen rs

/-- `MultiSearchStrategy._deduplicate_results`. -/
def deduplicate_results (rs : List MatchResult) : List MatchResult :=
  dedupAux [] rs

/-- Descending comparison on `match_score` alone, used by
`unique_results.sort(key=lambda x: x['match_score'], reverse=True)`. -/
def scoreGe (a b : MatchResult) : Bool :=
  decide (b.match_score ≤ a.match_score)

/-- Stable descending sort by `match_score`. -/
def sortByScore (rs : List MatchResult) : List MatchResult :=
  rs.mergeSort scoreGe

/-- `MongoDBSubtitleSearch.search_multiple_queries` (lines 398–424): run
`search_subtitles` for each query, concatenate, deduplicate across the
concatenation, and sort by `match_score` descending. -/
def search_multiple_queries (connected : Bool)
    (fetch : Except String (List Doc)) (queries : List (List Char))
    (limit_per_query : Nat) : List MatchResult :=
  let all_results := (queries.map
    (fun q => search_subtitles connected fetch q limit_per_query)).flatten
  sortByScore (dedupAux [] all_results)

/-- The punctuation set stripped from token edges in `extract_phrases`
(speech_to_text.py line 200: `word.strip('.,!?;:"()[]{}')`). -/
def phrasePunct : List Char :=
  ['.', ',', '!', '?', ';', ':', '"', '(', ')', '[', ']', '\x7b', '\x7d']

/-- Python's `str.strip(chars)`: drop characters of `cs` from both ends. -/
def pyStrip (w : List Char) (cs : List Char) : List Char :=
  ((w.dropWhile (cs.contains ·)).reverse.dropWhile (cs.contains ·)).reverse

/-- Python's no-argument `str.strip()`: drop whitespace from both ends. -/
def pyStripWs (w : List Char) : List Char :=
  ((w.dropWhile pyIsSpace).reverse.dropWhile pyIsSpace).reverse

/-- The word list of `extract_phrases` (speech_to_text.py lines 199–200):
lowercase, turn newlines into spaces, split on whitespace, keep the words
that are non-empty after a whitespace strip, and strip punctuation from the
edges of each kept word. -/
def phraseWords (text : List Char) : List (List Char) :=
  let words := splitWs ((pyLowerL text).map (fun c => if c = '\n' then ' ' else c))
  (words.filter (fun w => pyStripWs w ≠ [])).map (fun w => pyStrip w phrasePunct)

/-- The order-preserving deduplication of `extract_phrases`
(speech_to_text.py lines 209–214): first occurrence wins. -/
def dedupPhrases (seen : List (List Char)) :
    List (List Char) → List (List Char)
  | [] => []
  | p :: ps =>
    if p ∈ seen then dedupPhrases seen ps
    else p :: dedupPhrases (p :: seen) ps

/-- `SpeechToTextService.extract_phrases` (speech_to_text.py lines 193–217)
on the transcription text.  `List.range (words.length + 1 - phrase_length)`
is Python's `range(len(words) - phrase_length + 1)`: both are empty when
`phrase_length` exceeds the word count. -/
def extract_phrases (text : List Char) (phrase_length : Nat) : List (List Char) :=
  let words := phraseWords text
  let phrases := (List.range (words.length + 1 - phrase_length)).map
    (fun i => joinSpace ((words.drop i).take phrase_length))
  dedupPhrases [] phrases

/-- The `(movie_title, year)` identity key of a result. -/
def keyR (r : MatchResult) : String × String :=
  (r.movie_title, r.year)

/-- The `(movie_title, year)` identity key of a document. -/
def keyD (d : Doc) : String × String :=
  (d.movie_title, d.year)

/-- A document with the metadata fields defaulted, used for the concrete
corpora of the witnesses and counterexamples below. -/
def mkDoc (title year : String) (text : List Char) : Doc :=
  { movie_title := title
    year := year
    text_lower := text
    subtitle_text := ""
    imdb_id := ""
    genres := []
    overview := ""
    start_time := 0
    end_time := 0
    vote_average := 0
    vote_count := 0 }

/-- Did the Tier A normalized-containment test of the scan loop (line 291)
succeed for this document? -/
def tierAHitNorm (query_lower : List Char) (d : Doc) : Bool :=
  (findSub (pyNormalize query_lower) (pyNormalize (pyLowerL d.text_lower))).isSome

/-- Did the Tier A raw lowercase containment test of the scan loop (line 301)
succeed for this document? -/
def tierAHitRaw (query_lower : List Char) (d : Doc) : Bool :=
  (findSub query_lower (pyLowerL d.text_lower)).isSome

/-- The number of query tokens that occur as substrings of the document's
lowercase text (the `word_matches` count of line 311). -/
def matchedCount (query_lower : List Char) (d : Doc) : Nat :=
  ((splitWs query_lower).filter
    (fun w => (findSub w (pyLowerL d.text_lower)).isSome)).length

/-- Modelled from the spec: the §4.2 match-score formula exactly as the spec
words it, with no empty-text guard, for comparison with `calcMatchScore`
(which is the code). -/
def specScore42 (query text : List Char) : ℚ :=
  if (findSub query text).isSome then
    1 + (1 - (((findSub query text).getD 0 : Nat) : ℚ) / (text.length : ℚ))
  else if splitWs query = [] then 0
  else (((splitWs query).filter (fun w => (splitWs text).contains w)).length : ℚ) /
    ((splitWs query).length : ℚ)

/-- Modelled from the spec: claim C4's Tier A score — "the §4.2 containment
score plus a fixed additive tier bonus (+2.0 normalized, +1.5 raw)" — for
comparison with `tierScore` (which is the code). -/
def claimTierScoreC4 (query_lower : List Char) (d : Doc) : Option ℚ :=
  if tierAHitNorm query_lower d then
    some (calcMatchScore (pyNormalize query_lower)
      (pyNormalize (pyLowerL d.text_lower)) + 2)
  else if tierAHitRaw query_lower d then
    some (calcMatchScore query_lower (pyLowerL d.text_lower) + 3/2)
  else none

/-- The list of all contiguous sliding windows of `L` tokens, from the
claim C9 wording. -/
def slidingWindows (L : Nat) (toks : List (List Char)) : List (List (List Char)) :=
  (List.range (toks.length + 1 - L)).map (fun i => (toks.drop i).take L)

/-- Concrete document with text `"abcd"`, for the Tier A score counterexample. -/
def docA : Doc := mkDoc "M" "2001" ['a', 'b', 'c', 'd']

/-- Concrete document with text `"hello"`, for the empty-query counterexample. -/
def docH : Doc := mkDoc "H" "2002" ['h', 'e', 'l', 'l', 'o']

/-- Concrete document with text `"a b c d"`, for the zero-token-overlap
counterexample. -/
def docT : Doc := mkDoc "T" "1999" "a b c d".toList

/-- The query `"a. b. c. d."`: four whitespace tokens, none of which occurs
verbatim in `docT`'s text, though its normalization does. -/
def qPunct : List Char := "a. b. c. d.".toList

theorem leadsWith_iff (q : List Char) : ∀ t : List Char,
    leadsWith q t = true ↔ ∃ s, t = q ++ s := by
  induction q with
  | nil => intro t; simp [leadsWith]
  | cons c q ih =>
    intro t
    cases t with
    | nil =>
      simp only [leadsWith, List.cons_append]
      constructor
      · intro h; cases h
      · rintro ⟨s, h⟩; cases h
    | cons d t =>
      simp only [leadsWith, Bool.and_eq_true, decide_eq_true_eq, ih,
        List.cons_append, List.cons.injEq]
      constructor
      · rintro ⟨h1, s, h2⟩; exact ⟨s, h1.symm, h2⟩
      · rintro ⟨s, h1, h2⟩; exact ⟨h1.symm, s, h2⟩

theorem findSub_nil_left (t : List Char) : findSub [] t = some 0 := by
  cases t <;> simp [findSub, leadsWith]

theorem findSub_isSome_iff (q : List Char) : ∀ t : List Char,
    (findSub q t).isSome = true ↔ ∃ p s, t = p ++ (q ++ s) := by
  intro t
  induction t with
  | nil =>
    simp only [findSub]
    constructor
    · intro h
      split at h
      · rename_i hl
        obtain ⟨s, hs⟩ := (leadsWith_iff q []).mp hl
        exact ⟨[], s, by simpa using hs⟩
      · simp at h
    · rintro ⟨p, s, hps⟩
      have : leadsWith q [] = true := by
        rw [leadsWith_iff]
        cases p with
        | nil => exact ⟨s, by simpa using hps⟩
        | cons x xs => simp at hps
      simp [this]
  | cons d t ih =>
    simp only [findSub]
    constructor
    · intro h
      split at h
      · rename_i hl
        obtain ⟨s, hs⟩ := (leadsWith_iff q (d :: t)).mp hl
        exact ⟨[], s, by simpa using hs⟩
      · rename_i hl
        have h2 : (findSub q t).isSome = true := by
          cases hfs : findSub q t with
          | none => rw [hfs] at h; simp at h
          | some p => simp
        obtain ⟨p, s, hps⟩ := ih.mp h2
        exact ⟨d :: p, s, by simp [hps]⟩
    · rintro ⟨p, s, hps⟩
      split
      · simp
      · rename_i hl
        cases p with
        | nil =>
          exfalso
          apply hl
          rw [leadsWith_iff]
          exact ⟨s, by simpa using hps⟩
        | cons x xs =>
          simp only [List.cons_append, List.cons.injEq] at hps
          have h2 : (findSub q t).isSome = true := ih.mpr ⟨xs, s, hps.2⟩
          cases hfs : findSub q t with
          | none => rw [hfs] at h2; simp at h2
          | some p2 => simp

theorem findSub_bound (q : List Char) : ∀ (t : List Char) (p : Nat),
    findSub q t = some p → p + q.length ≤ t.length := by
  intro t
  induction t with
  | nil =>
    intro p h
    simp only [findSub] at h
    split at h
    · rename_i hl
      obtain ⟨s, hs⟩ := (leadsWith_iff q []).mp hl
      cases h
      have hq : q = [] := by
        cases q with
        | nil => rfl
        | cons x xs => simp at hs
      subst hq
      simp
    · cases h
  | cons d t ih =>
    intro p h
    simp only [findSub] at h
    split at h
    · rename_i hl
      obtain ⟨s, hs⟩ := (leadsWith_iff q (d :: t)).mp hl
      cases h
      have hlen : t.length + 1 = q.length + s.length := by
        simpa using congrArg List.length hs
      simp only [List.length_cons]
      omega
    · rename_i hl
      cases hfs : findSub q t with
      | none => rw [hfs] at h; cases h
      | some p2 =>
        rw [hfs] at h
        simp only [Option.map] at h
        cases h
        have := ih p2 hfs
        simp only [List.length_cons]
        omega

theorem splitWsAux_token : ∀ (cs cur : List Char) (w : List Char),
    w ∈ splitWsAux cur cs → ∃ p r, cur.reverse ++ cs = p ++ (w ++ r) := by
  intro cs
  induction cs with
  | nil =>
    intro cur w hw
    simp only [splitWsAux] at hw
    split at hw
    · cases hw
    · simp only [List.mem_singleton] at hw
      exact ⟨[], [], by simp [hw]⟩
  | cons c cs ih =>
    intro cur w hw
    simp only [splitWsAux] at hw
    split at hw
    · rename_i hsp
      split at hw
      · rename_i hcur
        obtain ⟨p, r, hpr⟩ := ih [] w hw
        simp only [List.reverse_nil, List.nil_append] at hpr
        exact ⟨c :: p, r, by simp [hcur, hpr]⟩
      · rcases List.mem_cons.mp hw with h | h
        · exact ⟨[], c :: cs, by simp [h]⟩
        · obtain ⟨p, r, hpr⟩ := ih [] w h
          simp only [List.reverse_nil, List.nil_append] at hpr
          refine ⟨cur.reverse ++ c :: p, r, ?_⟩
          simp [hpr]
    · rename_i hsp
      obtain ⟨p, r, hpr⟩ := ih (c :: cur) w hw
      simp only [List.reverse_cons] at hpr
      refine ⟨p, r, ?_⟩
      rw [← hpr]
      simp

theorem splitWs_token (s w : List Char) (hw : w ∈ splitWs s) :
    ∃ p r, s = p ++ (w ++ r) := by
  have := splitWsAux_token s [] w hw
  simpa using this

theorem resultGe_total (a b : MatchResult) : resultGe a b || resultGe b a := by
  simp only [resultGe, Bool.or_eq_true, Bool.and_eq_true, decide_eq_true_eq]
  rcases lt_trichotomy a.match_score b.match_score with h | h | h
  · exact Or.inr (Or.inl h)
  · rcases le_total a.vote_count b.vote_count with hv | hv
    · exact Or.inr (Or.inr ⟨h, hv⟩)
    · exact Or.inl (Or.inr ⟨h.symm, hv⟩)
  · exact Or.inl (Or.inl h)

theorem resultGe_trans (a b c : MatchResult) :
    resultGe a b → resultGe b c → resultGe a c := by
  simp only [resultGe, Bool.or_eq_true, Bool.and_eq_true, decide_eq_true_eq]
  rintro (h1 | ⟨h1, hv1⟩) (h2 | ⟨h2, hv2⟩)
  · exact Or.inl (h2.trans h1)
  · exact Or.inl (lt_of_le_of_lt (le_of_eq h2) h1)
  · exact Or.inl (lt_of_lt_of_le h2 (le_of_eq h1))
  · exact Or.inr ⟨h2.trans h1, hv2.trans hv1⟩

theorem scoreGe_total (a b : MatchResult) : scoreGe a b || scoreGe b a := by
  simp only [scoreGe, Bool.or_eq_true, decide_eq_true_eq]
  exact le_total b.match_score a.match_score

theorem scoreGe_trans (a b c : MatchResult) :
    scoreGe a b → scoreGe b c → scoreGe a c := by
  simp only [scoreGe, decide_eq_true_eq]
  intro h1 h2
  exact h2.trans h1

theorem pairGe_total (a b : Doc × ℚ) : pairGe a b || pairGe b a := by
  simp only [pairGe, Bool.or_eq_true, decide_eq_true_eq]
  exact le_total b.2 a.2

theorem pairGe_trans (a b c : Doc × ℚ) :
    pairGe a b → pairGe b c → pairGe a c := by
  simp only [pairGe, decide_eq_true_eq]
  intro h1 h2
  exact h2.trans h1

theorem dedupAux_spec : ∀ (rs : List MatchResult)
    (seen : List (String × String)) (r : MatchResult), r ∈ dedupAux seen rs →
    keyR r ∉ seen ∧ keyR r ≠ ("Unknown", "Unknown") ∧
      rs.find? (fun x => decide (keyR x = keyR r)) = some r := by
  intro rs
  induction rs with
  | nil => intro seen r hr; cases hr
  | cons a as ih =>
    intro seen r hr
    simp only [dedupAux] at hr
    split at hr
    · rename_i hc
      rcases List.mem_cons.mp hr with h | h
      · subst h
        refine ⟨hc.1, hc.2, ?_⟩
        rw [List.find?_cons_of_pos _ (by simp)]
      · obtain ⟨hs, hu, hf⟩ := ih _ r h
        have hne : keyR a ≠ keyR r := by
          intro he
          exact hs (by rw [← he]; exact List.mem_cons_self _ _)
        refine ⟨fun hmem => hs (List.mem_cons_of_mem _ hmem), hu, ?_⟩
        rw [List.find?_cons_of_neg _ (by simp [hne]), hf]
    · rename_i hc
      obtain ⟨hs, hu, hf⟩ := ih _ r hr
      have hne : keyR a ≠ keyR r := by
        rcases not_and_or.mp hc with h | h
        · rw [not_not] at h
          intro he
          exact hs (he ▸ h)
        · rw [not_not] at h
          intro he
          exact hu (he ▸ h)
      refine ⟨hs, hu, ?_⟩
      rw [List.find?_cons_of_neg _ (by simp [hne]), hf]

theorem dedupAux_pairwise : ∀ (rs : List MatchResult)
    (seen : List (String × String)),
    List.Pairwise (fun a b => keyR a ≠ keyR b) (dedupAux seen rs) := by
  intro rs
  induction rs with
  | nil => intro seen; simp [dedupAux]
  | cons a as ih =>
    intro seen
    simp only [dedupAux]
    split
    · rename_i hc
      refine List.Pairwise.cons ?_ (ih _)
      intro b hb
      have := (dedupAux_spec as _ b hb).1
      intro he
      exact this (by rw [← he]; exact List.mem_cons_self _ _)
    · exact ih _

theorem keyR_mkResult (q : List Char) (d : Doc) : keyR (mkResult q d) = keyD d := rfl

theorem processAux_spec (q : List Char) : ∀ (docs : List Doc)
    (seen : List (String × String)) (r : MatchResult),
    r ∈ processAux q seen docs →
    keyR r ∉ seen ∧ keyR r ≠ ("Unknown", "Unknown") ∧
      ∃ d, docs.find? (fun x => decide (keyD x = keyR r)) = some d ∧
        r = mkResult q d := by
  intro docs
  induction docs with
  | nil => intro seen r hr; cases hr
  | cons a as ih =>
    intro seen r hr
    simp only [processAux] at hr
    split at hr
    · rename_i hc
      rcases List.mem_cons.mp hr with h | h
      · subst h
        refine ⟨hc.1, hc.2, a, ?_, rfl⟩
        rw [List.find?_cons_of_pos _ (by simp [keyD, keyR_mkResult])]
      · obtain ⟨hs, hu, d, hf, hd⟩ := ih _ r h
        have hne : keyD a ≠ keyR r := by
          intro he
          exact hs (by rw [← he]; exact List.mem_cons_self _ _)
        refine ⟨fun hmem => hs (List.mem_cons_of_mem _ hmem), hu, d, ?_, hd⟩
        rw [List.find?_cons_of_neg _ (by simp [hne]), hf]
    · rename_i hc
      obtain ⟨hs, hu, d, hf, hd⟩ := ih _ r hr
      have hne : keyD a ≠ keyR r := by
        rcases not_and_or.mp hc with h | h
        · rw [not_not] at h
          intro he
          exact hs (he ▸ h)
        · rw [not_not] at h
          intro he
          exact hu (he ▸ h)
      refine ⟨hs, hu, d, ?_, hd⟩
      rw [List.find?_cons_of_neg _ (by simp [hne]), hf]

theorem processAux_pairwise (q : List Char) : ∀ (docs : List Doc)
    (seen : List (String × String)),
    List.Pairwise (fun a b => keyR a ≠ keyR b) (processAux q seen docs) := by
  intro docs
  induction docs with
  | nil => intro seen; simp [processAux]
  | cons a as ih =>
    intro seen
    simp only [processAux]
    split
    · rename_i hc
      refine List.Pairwise.cons ?_ (ih _)
      intro b hb
      have := (processAux_spec q as _ b hb).1
      rw [keyR_mkResult]
      intro he
      exact this (by rw [← he]; exact List.mem_cons_self _ _)
    · exact ih _

theorem dedupPhrases_not_seen : ∀ (l : List (List Char))
    (seen : List (List Char)) (w : List Char),
    w ∈ dedupPhrases seen l → w ∉ seen := by
  intro l
  induction l with
  | nil => intro seen w hw; cases hw
  | cons p ps ih =>
    intro seen w hw
    simp only [dedupPhrases] at hw
    split at hw
    · exact ih _ _ hw
    · rcases List.mem_cons.mp hw with h | h
      · rename_i hp
        subst h
        exact hp
      · intro hmem
        exact (ih _ _ h) (List.mem_cons_of_mem _ hmem)

theorem dedupPhrases_nodup : ∀ (l : List (List Char))
    (seen : List (List Char)), (dedupPhrases seen l).Nodup := by
  intro l
  induction l with
  | nil => intro seen; simp [dedupPhrases]
  | cons p ps ih =>
    intro seen
    simp only [dedupPhrases]
    split
    · exact ih _
    · refine List.Pairwise.cons ?_ (ih _)
      intro b hb he
      exact (dedupPhrases_not_seen ps _ b hb) (he ▸ List.mem_cons_self _ _)

theorem dedupPhrases_sublist : ∀ (l : List (List Char))
    (seen : List (List Char)), (dedupPhrases seen l).Sublist l := by
  intro l
  induction l with
  | nil => intro seen; simp [dedupPhrases]
  | cons p ps ih =>
    intro seen
    simp only [dedupPhrases]
    split
    · exact (ih seen).cons p
    · exact (ih (p :: seen)).cons₂ p

theorem dedupPhrases_mem : ∀ (l : List (List Char))
    (seen : List (List Char)) (p : List Char), p ∈ l →
    p ∈ dedupPhrases seen l ∨ p ∈ seen := by
  intro l
  induction l with
  | nil => intro seen p hp; cases hp
  | cons a as ih =>
    intro seen p hp
    simp only [dedupPhrases]
    split
    · rename_i ha
      rcases List.mem_cons.mp hp with h | h
      · exact Or.inr (h ▸ ha)
      · exact ih seen p h
    · rcases List.mem_cons.mp hp with h | h
      · exact Or.inl (h ▸ List.mem_cons_self _ _)
      · rcases ih (a :: seen) p h with h2 | h2
        · exact Or.inl (List.mem_cons_of_mem _ h2)
        · rcases List.mem_cons.mp h2 with h3 | h3
          · exact Or.inl (h3 ▸ List.mem_cons_self _ _)
          · exact Or.inr h3

theorem calcMatchScore_found (q t : List Char) (p : Nat) (hne : t ≠ [])
    (h : findSub q t = some p) :
    calcMatchScore q t = 1 + (1 - (p : ℚ) / (t.length : ℚ)) := by
  simp [calcMatchScore, hne, h]

theorem calcMatchScore_not_found (q t : List Char) (hne : t ≠ [])
    (h : findSub q t = none) :
    calcMatchScore q t =
      if splitWs q = [] then 0
      else (((splitWs q).filter (fun w => (splitWs t).contains w)).length : ℚ) /
        ((splitWs q).length : ℚ) := by
  simp [calcMatchScore, hne, h]

example : extract_phrases "a b c d".toList 2 =
    ["a b".toList, "b c".toList, "c d".toList] := by decide

example : calcMatchScore ['a', 'b'] ['a', 'b', 'c', 'd'] = 2 := by
  rw [calcMatchScore_found _ _ 0 (by decide) (by decide)]
  norm_num

example : calcMatchScore ['x', ' ', 'y'] ['y', ' ', 'z'] = 1/2 := by
  rw [calcMatchScore_not_found _ _ (by decide) (by decide)]
  rw [if_neg (by decide : ¬ splitWs ['x', ' ', 'y'] = []),
    show ((splitWs ['x', ' ', 'y']).filter
      fun w => (splitWs ['y', ' ', 'z']).contains w) = [['y']] from by decide,
    show splitWs ['x', ' ', 'y'] = [['x'], ['y']] from by decide]
  norm_num

/-- C10: the match scorer is total and never divides by zero: for every
query, `_calculate_match_score(query, "")` returns `0.0` (the empty-text
check short-circuits before the division by `len(text)`), and in the
non-containment branch a query that splits into zero tokens returns `0.0`
instead of dividing by `len(words) = 0`. -/
theorem calcMatchScore_total_safe :
    (∀ q : List Char, calcMatchScore q [] = 0) ∧
    (∀ q t : List Char, findSub q t = none → splitWs q = [] →
      calcMatchScore q t = 0) := by
  constructor
  · intro q
    simp [calcMatchScore]
  · intro q t hf hq
    by_cases ht : t = []
    · simp [calcMatchScore, ht]
    · rw [calcMatchScore_not_found q t ht hf, if_pos hq]

theorem calcMatchScore_total_safe_witness :
    calcMatchScore ['!'] [] = 0 ∧ calcMatchScore [' '] ['a'] = 0 :=
  ⟨calcMatchScore_total_safe.1 ['!'],
    calcMatchScore_total_safe.2 [' '] ['a'] (by decide) (by decide)⟩

theorem searchRaw_nil (q : List Char) (limit : Nat) : searchRaw q [] limit = [] := by
  simp [searchRaw, tierAB, mongoLimit, sortPairs]

/-- C3: `search_subtitles` returns an empty list rather than raising when the
store is unreachable (`connected = false`), when any internal failure occurs
during retrieval (the collection read raises, modelled by `Except.error`,
absorbed by the enclosing `try`/`except`), or when the corpus is empty. -/
theorem search_subtitles_failure_empty :
    (∀ (fetch : Except String (List Doc)) (q : List Char) (limit : Nat),
      search_subtitles false fetch q limit = []) ∧
    (∀ (e : String) (q : List Char) (limit : Nat),
      search_subtitles true (Except.error e) q limit = []) ∧
    (∀ (q : List Char) (limit : Nat),
      search_subtitles true (Except.ok []) q limit = []) := by
  refine ⟨?_, ?_, ?_⟩
  · intro fetch q limit
    simp [search_subtitles]
  · intro e q limit
    simp [search_subtitles]
  · intro q limit
    simp [search_subtitles, searchRaw_nil, processAux, sortByScoreVote]

/-- C9: for every text and every `phrase_length ≥ 1`, `extract_phrases`
returns, in order, every contiguous sliding window of exactly
`phrase_length` tokens of the normalized token list —
`max(0, token_count - phrase_length + 1)` windows before deduplication —
with later duplicate windows dropped so the first occurrence of each window
wins (no duplicates, a subsequence of the window list, every window still
represented); in particular `extract_phrases("a b c d", 2)` yields
`["a b", "b c", "c d"]`. -/
theorem extract_phrases_spec (text : List Char) (L : Nat) (hL : 1 ≤ L) :
    (slidingWindows L (phraseWords text)).length =
      (phraseWords text).length + 1 - L ∧
    (∀ w ∈ slidingWindows L (phraseWords text), w.length = L) ∧
    extract_phrases text L =
      dedupPhrases [] ((slidingWindows L (phraseWords text)).map joinSpace) ∧
    (extract_phrases text L).Nodup ∧
    (extract_phrases text L).Sublist
      ((slidingWindows L (phraseWords text)).map joinSpace) ∧
    (∀ p ∈ (slidingWindows L (phraseWords text)).map joinSpace,
      p ∈ extract_phrases text L) ∧
    extract_phrases "a b c d".toList 2 =
      ["a b".toList, "b c".toList, "c d".toList] := by
  have hdef : extract_phrases text L =
      dedupPhrases [] ((slidingWindows L (phraseWords text)).map joinSpace) := by
    simp only [extract_phrases, slidingWindows, List.map_map]
    rfl
  refine ⟨?_, ?_, hdef, ?_, ?_, ?_, by decide⟩
  · simp [slidingWindows]
  · intro w hw
    simp only [slidingWindows, List.mem_map, List.mem_range] at hw
    obtain ⟨i, hi, hwi⟩ := hw
    subst hwi
    simp only [List.length_take, List.length_drop]
    omega
  · rw [hdef]
    exact dedupPhrases_nodup _ _
  · rw [hdef]
    exact dedupPhrases_sublist _ _
  · intro p hp
    rw [hdef]
    rcases dedupPhrases_mem _ [] p hp with h | h
    · exact h
    · cases h

theorem extract_phrases_spec_witness :
    extract_phrases "a b c d".toList 2 =
      ["a b".toList, "b c".toList, "c d".toList] :=
  (extract_phrases_spec "a b c d".toList 2 (by decide)).2.2.2.2.2.2

/-- C2: the deduplicated output — of the per-query aggregation pass in
`search_subtitles`, of the multi-query merge in `search_multiple_queries`,
and of `_deduplicate_results` — never contains two results with the same
`(movie_title, year)` key and never contains a result whose key equals
`('Unknown', 'Unknown')`; for each surviving key the first-seen candidate in
input order is the one kept. -/
theorem dedup_never_duplicates :
    (∀ (q : List Char) (docs : List Doc),
      List.Pairwise (fun a b => keyR a ≠ keyR b) (processAux q [] docs) ∧
      (∀ r ∈ processAux q [] docs, keyR r ≠ ("Unknown", "Unknown")) ∧
      (∀ r ∈ processAux q [] docs,
        ∃ d, docs.find? (fun x => decide (keyD x = keyR r)) = some d ∧
          r = mkResult q d)) ∧
    (∀ rs : List MatchResult,
      List.Pairwise (fun a b => keyR a ≠ keyR b) (deduplicate_results rs) ∧
      (∀ r ∈ deduplicate_results rs, keyR r ≠ ("Unknown", "Unknown")) ∧
      (∀ r ∈ deduplicate_results rs,
        rs.find? (fun x => decide (keyR x = keyR r)) = some r)) ∧
    (∀ (connected : Bool) (fetch : Except String (List Doc))
      (queries : List (List Char)) (n : Nat),
      List.Pairwise (fun a b => keyR a ≠ keyR b)
        (search_multiple_queries connected fetch queries n) ∧
      (∀ r ∈ search_multiple_queries connected fetch queries n,
        keyR r ≠ ("Unknown", "Unknown")) ∧
      (∀ r ∈ search_multiple_queries connected fetch queries n,
        ((queries.map (fun q => search_subtitles connected fetch q n)).flatten).find?
          (fun x => decide (keyR x = keyR r)) = some r)) := by
  refine ⟨?_, ?_, ?_⟩
  · intro q docs
    refine ⟨processAux_pairwise q docs [], ?_, ?_⟩
    · intro r hr
      exact (processAux_spec q docs [] r hr).2.1
    · intro r hr
      exact (processAux_spec q docs [] r hr).2.2
  · intro rs
    refine ⟨dedupAux_pairwise rs [], ?_, ?_⟩
    · intro r hr
      exact (dedupAux_spec rs [] r hr).2.1
    · intro r hr
      exact (dedupAux_spec rs [] r hr).2.2
  · intro connected fetch queries n
    have hperm : List.Perm (search_multiple_queries connected fetch queries n)
        (dedupAux [] ((queries.map
          (fun q => search_subtitles connected fetch q n)).flatten)) :=
      List.mergeSort_perm _ _
    refine ⟨?_, ?_, ?_⟩
    · exact (List.Perm.pairwise_iff (fun h => Ne.symm h) hperm).mpr
        (dedupAux_pairwise _ [])
    · intro r hr
      exact (dedupAux_spec _ [] r (hperm.subset hr)).2.1
    · intro r hr
      exact (dedupAux_spec _ [] r (hperm.subset hr)).2.2

theorem dedup_never_duplicates_witness :
    ∃ d, [docA].find? (fun x =>
        decide (keyD x = keyR (mkResult ['a'] docA))) = some d ∧
      mkResult ['a'] docA = mkResult ['a'] d := by
  have hmem : mkResult ['a'] docA ∈ processAux ['a'] [] [docA] := by
    simp only [processAux]
    rw [if_pos (by constructor <;> decide)]
    exact List.mem_cons_self _ _
  exact (dedup_never_duplicates.1 ['a'] [docA]).2.2 (mkResult ['a'] docA) hmem

theorem sortByScoreVote_perm (rs : List MatchResult) :
    List.Perm (sortByScoreVote rs) rs :=
  List.mergeSort_perm rs resultGe

theorem sortByScoreVote_sorted (rs : List MatchResult) :
    List.Pairwise (fun a b => resultGe a b = true) (sortByScoreVote rs) :=
  List.sorted_mergeSort resultGe_trans resultGe_total rs

/-- C8: after deduplication, the per-query aggregation sorts the surviving
results in descending order by the pair `(match_score, vote_count)` —
`vote_count` breaking ties in `match_score` — and truncates the output to at
most `limit` results. -/
theorem aggregate_sort_truncate (q : List Char) (docs : List Doc) (limit : Nat) :
    List.Perm (sortByScoreVote (processAux q [] docs)) (processAux q [] docs) ∧
    List.Pairwise (fun a b => resultGe a b = true)
      (sortByScoreVote (processAux q [] docs)) ∧
    (∀ a b : MatchResult, resultGe a b = true ↔
      (b.match_score < a.match_score ∨
        (b.match_score = a.match_score ∧ b.vote_count ≤ a.vote_count))) ∧
    search_subtitles true (Except.ok docs) q limit =
      (sortByScoreVote (processAux (pyLowerL q) []
        (searchRaw (pyLowerL q) docs limit))).take limit ∧
    (search_subtitles true (Except.ok docs) q limit).length ≤ limit := by
  refine ⟨sortByScoreVote_perm _, sortByScoreVote_sorted _, ?_, rfl, ?_⟩
  · intro a b
    simp [resultGe]
  · rw [show search_subtitles true (Except.ok docs) q limit =
      (sortByScoreVote (processAux (pyLowerL q) []
        (searchRaw (pyLowerL q) docs limit))).take limit from rfl]
    rw [List.length_take]
    exact min_le_left _ _

theorem searchRaw_of_ab_nil (q : List Char) (docs : List Doc) (limit : Nat)
    (hab : tierAB q docs limit = []) :
    searchRaw q docs limit =
      if (splitWs q).length ≤ 3 then
        mongoLimit limit (docs.filter (titleMatches q))
      else [] := by
  simp only [searchRaw, hab, sortPairs, List.mergeSort_nil, List.take_nil,
    List.map_nil, List.isEmpty_nil, if_true]

theorem searchRaw_of_ab_ne (q : List Char) (docs : List Doc) (limit : Nat)
    (hlim : 1 ≤ limit) (hab : tierAB q docs limit ≠ []) :
    searchRaw q docs limit =
      ((sortPairs (tierAB q docs limit)).take (limit * 2)).map Prod.fst := by
  have hlen : (sortPairs (tierAB q docs limit)).length =
      (tierAB q docs limit).length :=
    (List.mergeSort_perm _ _).length_eq
  have hpos : 0 < (tierAB q docs limit).length := List.length_pos.mpr hab
  have hres : (((sortPairs (tierAB q docs limit)).take (limit * 2)).map
      Prod.fst) ≠ [] := by
    intro hnil
    have := congrArg List.length hnil
    simp only [List.length_map, List.length_take, hlen, List.length_nil] at this
    omega
  simp only [searchRaw]
  rw [if_neg]
  simp only [List.isEmpty_iff]
  exact hres

/-- C7: for every positive `limit`, the Tier C title fallback executes if and
only if Tiers A and B together produced zero candidates and the query has at
most 3 whitespace-delimited tokens: when they produced none and the token
count is at most 3 the output is the title scan limited to `limit` records;
when they produced candidates the output is exactly their sorted truncation;
when they produced none but the query has more than 3 tokens the output is
empty. -/
theorem tierC_trigger_iff (q : List Char) (docs : List Doc) (limit : Nat)
    (hlim : 1 ≤ limit) :
    (tierAB q docs limit = [] ∧ (splitWs q).length ≤ 3 →
      searchRaw q docs limit =
        mongoLimit limit (docs.filter (titleMatches q))) ∧
    (tierAB q docs limit ≠ [] →
      searchRaw q docs limit =
        ((sortPairs (tierAB q docs limit)).take (limit * 2)).map Prod.fst) ∧
    (tierAB q docs limit = [] ∧ 3 < (splitWs q).length →
      searchRaw q docs limit = []) := by
  refine ⟨?_, ?_, ?_⟩
  · rintro ⟨hab, htok⟩
    rw [searchRaw_of_ab_nil q docs limit hab, if_pos htok]
  · intro hab
    exact searchRaw_of_ab_ne q docs limit hlim hab
  · rintro ⟨hab, htok⟩
    rw [searchRaw_of_ab_nil q docs limit hab, if_neg (by omega)]

theorem tierC_trigger_iff_witness :
    searchRaw ['x'] [] 1 = mongoLimit 1 ([].filter (titleMatches ['x'])) :=
  (tierC_trigger_iff ['x'] [] 1 (by decide)).1 ⟨by rfl, by decide⟩

/-- C5 counterexample: the query `"!!!"` normalizes to the empty string, yet
Tier A accepts the line `"hello"` — the empty normalized query is a
contiguous substring of every normalized text — so Tier A does produce
candidate lines, contradicting the claim. -/
theorem emptyQuery_tierA_cex :
    pyNormalize (pyLowerL ['!', '!', '!']) = [] ∧
    (tierScore (pyLowerL ['!', '!', '!']) docH).isSome = true := by
  exact ⟨by decide, by decide⟩

/-- C5 amended: for every query whose normalization is the empty string,
Tier A accepts **every** scanned line with score `3.0` (the empty string is a
contiguous substring of every text, found at position 0 with completeness 0),
so Tier B never runs, for any corpus contents. -/
theorem emptyQuery_tierA_amended (q : List Char) (d : Doc)
    (h : pyNormalize q = []) : tierScore q d = some 3 := by
  have h0 : findSub [] (pyNormalize (pyLowerL d.text_lower)) = some 0 :=
    findSub_nil_left _
  simp only [tierScore, h, h0, Option.isSome_some, if_true, Option.getD_some,
    List.length_nil, Option.some.injEq]
  norm_num

theorem emptyQuery_tierA_amended_witness :
    tierScore (pyLowerL ['!', '!', '!']) docH = some 3 :=
  emptyQuery_tierA_amended (pyLowerL ['!', '!', '!']) docH (by decide)

theorem tier_containment_bound (qn tn : List Char) (p : Nat)
    (hfind : findSub qn tn = some p) (b : ℚ) :
    b ≤ (1 - (p : ℚ) / max (tn.length : ℚ) 1) +
      (qn.length : ℚ) / max (tn.length : ℚ) 1 + b := by
  have hM : (0:ℚ) < max (tn.length : ℚ) 1 :=
    lt_of_lt_of_le one_pos (le_max_right _ _)
  have hp : (p:ℚ) ≤ max (tn.length : ℚ) 1 := by
    have h1 : p ≤ tn.length := by
      have := findSub_bound qn tn p hfind
      omega
    exact le_trans (by exact_mod_cast h1) (le_max_left _ _)
  have h2 : (p:ℚ) / max (tn.length : ℚ) 1 ≤ 1 := (div_le_one hM).mpr hp
  have h3 : 0 ≤ (qn.length : ℚ) / max (tn.length : ℚ) 1 :=
    div_nonneg (by positivity) hM.le
  linarith

theorem tierScore_norm_eq (q : List Char) (d : Doc)
    (hn : tierAHitNorm q d = true) :
    tierScore q d = some
      ((1 - (((findSub (pyNormalize q) (pyNormalize (pyLowerL d.text_lower))).getD 0
          : Nat) : ℚ) / max ((pyNormalize (pyLowerL d.text_lower)).length : ℚ) 1) +
        ((pyNormalize q).length : ℚ) /
          max ((pyNormalize (pyLowerL d.text_lower)).length : ℚ) 1 + 2) := by
  simp only [tierAHitNorm] at hn
  simp only [tierScore, hn, if_true]

theorem tierScore_raw_eq (q : List Char) (d : Doc)
    (hn : tierAHitNorm q d = false) (hr : tierAHitRaw q d = true) :
    tierScore q d = some
      ((1 - (((findSub q (pyLowerL d.text_lower)).getD 0 : Nat) : ℚ) /
          max ((pyLowerL d.text_lower).length : ℚ) 1) +
        (q.length : ℚ) / max ((pyLowerL d.text_lower).length : ℚ) 1 + 3/2) := by
  simp only [tierAHitNorm] at hn
  simp only [tierAHitRaw] at hr
  simp only [tierScore, hn, hr, if_true, Bool.false_eq_true, if_false]

theorem tierScore_noA_le_one (q : List Char) (d : Doc)
    (hn : tierAHitNorm q d = false) (hr : tierAHitRaw q d = false) :
    ∀ s, tierScore q d = some s → s ≤ 1 := by
  intro s hs
  simp only [tierAHitNorm] at hn
  simp only [tierAHitRaw] at hr
  simp only [tierScore, hn, hr, Bool.false_eq_true, if_false] at hs
  split at hs
  · rename_i hlen
    split at hs
    · rename_i hfrac
      have hs2 := Option.some.inj hs
      have hnpos : (0:ℚ) < ((splitWs q).length : ℚ) := by
        have : 0 < (splitWs q).length := by omega
        exact_mod_cast this
      have hm : ((List.filter (fun w => (findSub w (pyLowerL d.text_lower)).isSome)
          (splitWs q)).length : ℚ) ≤ ((splitWs q).length : ℚ) := by
        exact_mod_cast List.length_filter_le _ _
      rw [← hs2]
      exact (div_le_one hnpos).mpr hm
    · cases hs
  · cases hs

/-- C4 counterexample: for the query `"ab"` and the line `"abcd"`, the
Tier A normalized-containment score the code assigns is
position score `1` plus completeness `2/4` plus bonus `2`, i.e. `7/2`,
whereas the claim's `§4.2 containment score + 2.0` equals `4`. -/
theorem tierA_bonus_cex : tierScore ['a', 'b'] docA ≠ claimTierScoreC4 ['a', 'b'] docA := by
  have hn : tierAHitNorm ['a', 'b'] docA = true := by decide
  have h1 : findSub (pyNormalize ['a', 'b'])
      (pyNormalize (pyLowerL docA.text_lower)) = some 0 := by decide
  have h2 : pyNormalize (pyLowerL docA.text_lower) = ['a', 'b', 'c', 'd'] := by decide
  have h3 : pyNormalize ['a', 'b'] = ['a', 'b'] := by decide
  have h4 : calcMatchScore (pyNormalize ['a', 'b'])
      (pyNormalize (pyLowerL docA.text_lower)) = 2 := by
    rw [calcMatchScore_found _ _ 0 (by rw [h2]; decide) h1, h2]
    norm_num
  rw [tierScore_norm_eq _ _ hn]
  simp only [claimTierScoreC4, hn, if_true, h4, h1, h2, h3, Option.getD_some,
    Option.some.injEq, List.length_cons, List.length_nil]
  rw [show findSub ['a', 'b'] ['a', 'b', 'c', 'd'] = some 0 from by decide,
    calcMatchScore_found ['a', 'b'] ['a', 'b', 'c', 'd'] 0 (by decide) (by decide)]
  norm_num

theorem tierScore_norm_ge (q : List Char) (d : Doc)
    (hn : tierAHitNorm q d = true) :
    ∀ s, tierScore q d = some s → 2 ≤ s := by
  intro s hs
  rw [tierScore_norm_eq q d hn] at hs
  have hs2 := Option.some.inj hs
  obtain ⟨p, hp⟩ := Option.isSome_iff_exists.mp (by
    simpa [tierAHitNorm] using hn)
  rw [hp, Option.getD_some] at hs2
  rw [← hs2]
  exact tier_containment_bound _ _ p hp 2

theorem tierScore_raw_ge (q : List Char) (d : Doc)
    (hn : tierAHitNorm q d = false) (hr : tierAHitRaw q d = true) :
    ∀ s, tierScore q d = some s → 3/2 ≤ s := by
  intro s hs
  rw [tierScore_raw_eq q d hn hr] at hs
  have hs2 := Option.some.inj hs
  obtain ⟨p, hp⟩ := Option.isSome_iff_exists.mp (by
    simpa [tierAHitRaw] using hr)
  rw [hp, Option.getD_some] at hs2
  rw [← hs2]
  exact tier_containment_bound _ _ p hp (3/2)

theorem tierScore_A_ge (q : List Char) (d : Doc)
    (hA : tierAHitNorm q d = true ∨ tierAHitRaw q d = true) :
    ∀ s, tierScore q d = some s → 3/2 ≤ s := by
  intro s hs
  cases hn : tierAHitNorm q d with
  | true => linarith [tierScore_norm_ge q d hn s hs]
  | false =>
    rcases hA with h | h
    · rw [hn] at h; cases h
    · exact tierScore_raw_ge q d hn h s hs

/-- C4 amended: a Tier A hit is scored as position score `1 - pos/len(text)`
plus a completeness score `len(query)/len(text)` plus the fixed tier bonus
(`+2.0` for the normalized hit, `+1.5` for the raw lowercase hit) — not as
the §4.2 containment score plus the bonus; the normalized-hit score is
nevertheless at least `2`, the raw-hit score at least `3/2`, a Tier B score
is at most `1`, and therefore every Tier A hit still outranks every Tier B
hit regardless of the position of the match within the line. -/
theorem tierA_score_amended (q : List Char) (d : Doc) :
    (tierAHitNorm q d = true →
      tierScore q d = some
        ((1 - (((findSub (pyNormalize q) (pyNormalize (pyLowerL d.text_lower))).getD 0
            : Nat) : ℚ) / max ((pyNormalize (pyLowerL d.text_lower)).length : ℚ) 1) +
          ((pyNormalize q).length : ℚ) /
            max ((pyNormalize (pyLowerL d.text_lower)).length : ℚ) 1 + 2) ∧
      (∀ s, tierScore q d = some s → 2 ≤ s)) ∧
    (tierAHitNorm q d = false → tierAHitRaw q d = true →
      tierScore q d = some
        ((1 - (((findSub q (pyLowerL d.text_lower)).getD 0 : Nat) : ℚ) /
            max ((pyLowerL d.text_lower).length : ℚ) 1) +
          (q.length : ℚ) / max ((pyLowerL d.text_lower).length : ℚ) 1 + 3/2) ∧
      (∀ s, tierScore q d = some s → 3/2 ≤ s)) ∧
    (tierAHitNorm q d = false → tierAHitRaw q d = false →
      ∀ s, tierScore q d = some s → s ≤ 1) ∧
    (∀ (d2 : Doc) (s s2 : ℚ),
      (tierAHitNorm q d = true ∨ tierAHitRaw q d = true) →
      tierScore q d = some s →
      tierAHitNorm q d2 = false → tierAHitRaw q d2 = false →
      tierScore q d2 = some s2 → s2 < s) := by
  refine ⟨?_, ?_, tierScore_noA_le_one q d, ?_⟩
  · intro hn
    exact ⟨tierScore_norm_eq q d hn, tierScore_norm_ge q d hn⟩
  · intro hn hr
    exact ⟨tierScore_raw_eq q d hn hr, tierScore_raw_ge q d hn hr⟩
  · intro d2 s s2 hA hs hn2 hr2 hs2
    have h1 := tierScore_A_ge q d hA s hs
    have h2 := tierScore_noA_le_one q d2 hn2 hr2 s2 hs2
    linarith

theorem tierA_score_amended_witness : tierScore ['a', 'b'] docA = some
    ((1 - (((findSub (pyNormalize ['a', 'b'])
        (pyNormalize (pyLowerL docA.text_lower))).getD 0 : Nat) : ℚ) /
      max ((pyNormalize (pyLowerL docA.text_lower)).length : ℚ) 1) +
      ((pyNormalize ['a', 'b']).length : ℚ) /
        max ((pyNormalize (pyLowerL docA.text_lower)).length : ℚ) 1 + 2) :=
  ((tierA_score_amended ['a', 'b'] docA).1 (by decide)).1

theorem mongoLimit_subset (n : Nat) (l : List α) : ∀ x ∈ mongoLimit n l, x ∈ l := by
  intro x hx
  simp only [mongoLimit] at hx
  split at hx
  · exact hx
  · exact List.take_subset _ _ hx

theorem tierScore_B_eq (q : List Char) (d : Doc)
    (hn : tierAHitNorm q d = false) (hr : tierAHitRaw q d = false)
    (hlen : 1 < (splitWs q).length)
    (hfrac : ((splitWs q).length : ℚ) * (3/5) ≤ (matchedCount q d : ℚ)) :
    tierScore q d = some ((matchedCount q d : ℚ) / ((splitWs q).length : ℚ)) := by
  simp only [tierAHitNorm] at hn
  simp only [tierAHitRaw] at hr
  simp only [matchedCount] at hfrac ⊢
  simp only [tierScore, hn, hr, Bool.false_eq_true, if_false]
  rw [if_pos hlen, if_pos hfrac]

theorem tierScore_B_none (q : List Char) (d : Doc)
    (hn : tierAHitNorm q d = false) (hr : tierAHitRaw q d = false)
    (hm : (matchedCount q d : ℚ) < ((splitWs q).length : ℚ) * (3/5)) :
    tierScore q d = none := by
  simp only [tierAHitNorm] at hn
  simp only [tierAHitRaw] at hr
  simp only [matchedCount] at hm
  simp only [tierScore, hn, hr, Bool.false_eq_true, if_false]
  by_cases hlen : 1 < (splitWs q).length
  · rw [if_pos hlen, if_neg (not_le.mpr hm)]
  · rw [if_neg hlen]

theorem tierScore_B_single (q : List Char) (d : Doc)
    (hn : tierAHitNorm q d = false) (hr : tierAHitRaw q d = false)
    (hlen : (splitWs q).length ≤ 1) :
    tierScore q d = none := by
  simp only [tierAHitNorm] at hn
  simp only [tierAHitRaw] at hr
  simp only [tierScore, hn, hr, Bool.false_eq_true, if_false]
  rw [if_neg (by omega)]

theorem tierAHitRaw_of_token (q : List Char) (d : Doc) (w : List Char)
    (hw : w ∈ splitWs q) (hraw : tierAHitRaw q d = true) :
    (findSub w (pyLowerL d.text_lower)).isSome = true := by
  simp only [tierAHitRaw] at hraw
  obtain ⟨p, s, hps⟩ := (findSub_isSome_iff q (pyLowerL d.text_lower)).mp hraw
  obtain ⟨p1, r1, hpr⟩ := splitWs_token q w hw
  rw [findSub_isSome_iff]
  refine ⟨p ++ p1, r1 ++ s, ?_⟩
  rw [hps, hpr]
  simp

/-- C6 amended: for every query with more than one whitespace-delimited
token, Tier B accepts exactly those scanned lines not already matched by
Tier A in which at least 60% of the query's tokens occur as substrings of
the line's lowercase text, with score equal to the matched-token fraction
and no tier bonus; a single-token query never yields a Tier B candidate;
and a query of 4 or more tokens with zero token overlap in the corpus
**whose normalization is moreover contained in no line's normalized text**
yields an empty result (the last hypothesis is necessary: without it a
punctuated query can still match through the Tier A normalized-containment
test, see the counterexample). -/
theorem tierB_spec_amended (q : List Char) (d : Doc) (docs : List Doc)
    (limit : Nat) :
    (tierAHitNorm q d = false → tierAHitRaw q d = false →
      1 < (splitWs q).length →
      (((splitWs q).length : ℚ) * (3/5) ≤ (matchedCount q d : ℚ) →
        tierScore q d = some
          ((matchedCount q d : ℚ) / ((splitWs q).length : ℚ))) ∧
      ((matchedCount q d : ℚ) < ((splitWs q).length : ℚ) * (3/5) →
        tierScore q d = none)) ∧
    (tierAHitNorm q d = false → tierAHitRaw q d = false →
      (splitWs q).length ≤ 1 → tierScore q d = none) ∧
    (4 ≤ (splitWs q).length →
      (∀ d2 ∈ docs, tierAHitNorm q d2 = false) →
      (∀ d2 ∈ docs, ∀ w ∈ splitWs q, findSub w (pyLowerL d2.text_lower) = none) →
      searchRaw q docs limit = []) := by
  refine ⟨?_, ?_, ?_⟩
  · intro hn hr hlen
    exact ⟨tierScore_B_eq q d hn hr hlen, tierScore_B_none q d hn hr⟩
  · intro hn hr hlen
    exact tierScore_B_single q d hn hr hlen
  · intro h4 hnorm htok
    have hsc : ∀ d2 ∈ mongoLimit (limit * 100) docs, tierScore q d2 = none := by
      intro d2 hd2m
      have hd2 := mongoLimit_subset _ _ d2 hd2m
      have hn2 := hnorm d2 hd2
      have hr2 : tierAHitRaw q d2 = false := by
        cases hb : tierAHitRaw q d2 with
        | false => rfl
        | true =>
          exfalso
          obtain ⟨w0, hw0⟩ := List.exists_mem_of_length_pos
            (show 0 < (splitWs q).length by omega)
          have hsome := tierAHitRaw_of_token q d2 w0 hw0 hb
          rw [htok d2 hd2 w0 hw0] at hsome
          cases hsome
      have hm : matchedCount q d2 = 0 := by
        simp only [matchedCount, List.length_eq_zero, List.filter_eq_nil_iff]
        intro w hw
        rw [htok d2 hd2 w hw]
        simp
      apply tierScore_B_none q d2 hn2 hr2
      rw [hm]
      have hq : (0:ℚ) < ((splitWs q).length : ℚ) := by
        exact_mod_cast show 0 < (splitWs q).length by omega
      have : (0:ℚ) < ((splitWs q).length : ℚ) * (3/5) :=
        mul_pos hq (by norm_num)
      simpa using this
    have hab : tierAB q docs limit = [] := by
      simp only [tierAB, List.filterMap_eq_nil_iff]
      intro d2 hd2
      rw [hsc d2 hd2]
      rfl
    rw [searchRaw_of_ab_nil q docs limit hab, if_neg (by omega)]

theorem tierB_spec_amended_witness :
    tierScore "x y".toList docH = some
      ((matchedCount "x y".toList docH : ℚ) / ((splitWs "x y".toList).length : ℚ)) ∨
    tierScore "x y".toList docH = none := by
  refine Or.inr ?_
  refine ((tierB_spec_amended "x y".toList docH [] 0).1 (by decide) (by decide)
    (by decide)).2 ?_
  rw [show matchedCount "x y".toList docH = 0 from by decide,
    show (splitWs "x y".toList).length = 2 from by decide]
  norm_num

/-- C6 counterexample: the 4-token query `"a. b. c. d."` has zero token
overlap with the corpus `["a b c d"]` — no token occurs as a substring of
the line's lowercase text — yet the search result is non-empty, because the
query's normalization `"a b c d"` is contained in the line's normalized
text and Tier A accepts it. -/
theorem tierB_zero_overlap_cex :
    4 ≤ (splitWs (pyLowerL qPunct)).length ∧
    (∀ w ∈ splitWs (pyLowerL qPunct),
      findSub w (pyLowerL docT.text_lower) = none) ∧
    search_subtitles true (Except.ok [docT]) qPunct 1 ≠ [] := by
  refine ⟨by decide, by decide, ?_⟩
  have hsome : (tierScore (pyLowerL qPunct) docT).isSome = true := by decide
  obtain ⟨s, hs⟩ := Option.isSome_iff_exists.mp hsome
  have hab : tierAB (pyLowerL qPunct) [docT] 1 = [(docT, s)] := by
    simp [tierAB, mongoLimit, hs]
  have hraw : searchRaw (pyLowerL qPunct) [docT] 1 = [docT] := by
    rw [searchRaw_of_ab_ne _ _ _ (by omega)
      (by rw [hab]; exact List.cons_ne_nil _ _), hab]
    simp [sortPairs]
  have hproc : processAux (pyLowerL qPunct) [] [docT] =
      [mkResult (pyLowerL qPunct) docT] := by
    simp only [processAux]
    rw [if_pos ⟨by simp, by decide⟩]
  have hfinal : search_subtitles true (Except.ok [docT]) qPunct 1 =
      [mkResult (pyLowerL qPunct) docT] := by
    calc search_subtitles true (Except.ok [docT]) qPunct 1
        = (sortByScoreVote (processAux (pyLowerL qPunct) []
            (searchRaw (pyLowerL qPunct) [docT] 1))).take 1 := rfl
      _ = [mkResult (pyLowerL qPunct) docT] := by
          rw [hraw, hproc]
          simp [sortByScoreVote]
  rw [hfinal]
  exact List.cons_ne_nil _ _

/-- C1 counterexample: at `query = ""`, `text = ""` the query occurs as a
contiguous substring of the text (at position 0), the claim's formula
`1.0 + (1.0 - position/len(text))` yields `2` (reading the division at the
empty text as `0/0 = 0`; under any reading its bonus is claimed positive),
but the code's empty-text guard returns `0.0`. -/
theorem calcMatchScore_empty_text_cex :
    (findSub [] []).isSome = true ∧ calcMatchScore [] [] = 0 ∧
    specScore42 [] [] = 2 := by
  refine ⟨by decide, by simp [calcMatchScore], ?_⟩
  simp only [specScore42, findSub_nil_left, Option.isSome_some, if_true,
    Option.getD_some, List.length_nil]
  norm_num

/-- C1 amended: the scorer returns `0.0` for empty text (before any
division); for nonempty text it returns exactly the claimed value —
`1.0 + (1.0 - position/len(text))` under containment, and otherwise the
fraction of query tokens appearing as whole whitespace-delimited tokens of
the text, a value in `[0, 1]`, with score `0` when the query splits into no
tokens. -/
theorem calcMatchScore_spec_amended (q t : List Char) :
    calcMatchScore q [] = 0 ∧
    (t ≠ [] → calcMatchScore q t = specScore42 q t) ∧
    (t ≠ [] → (findSub q t).isSome = false →
      0 ≤ calcMatchScore q t ∧ calcMatchScore q t ≤ 1) ∧
    ((findSub q t).isSome = false → splitWs q = [] →
      calcMatchScore q t = 0) := by
  have hnone : (findSub q t).isSome = false → findSub q t = none := by
    intro hf
    cases hfs : findSub q t with
    | none => rfl
    | some p => rw [hfs] at hf; simp at hf
  refine ⟨by simp [calcMatchScore], ?_, ?_, ?_⟩
  · intro ht
    simp [calcMatchScore, specScore42, ht]
  · intro ht hf
    rw [calcMatchScore_not_found q t ht (hnone hf)]
    by_cases hw : splitWs q = []
    · rw [if_pos hw]
      exact ⟨le_refl 0, by norm_num⟩
    · rw [if_neg hw]
      have hn : (0:ℚ) < ((splitWs q).length : ℚ) := by
        have : 0 < (splitWs q).length := List.length_pos.mpr hw
        exact_mod_cast this
      constructor
      · positivity
      · rw [div_le_one hn]
        exact_mod_cast List.length_filter_le _ _
  · intro hf hq
    by_cases ht : t = []
    · simp [calcMatchScore, ht]
    · rw [calcMatchScore_not_found q t ht (hnone hf), if_pos hq]

theorem calcMatchScore_spec_amended_witness :
    calcMatchScore ['a'] ['b', 'a'] = specScore42 ['a'] ['b', 'a'] :=
  (calcMatchScore_spec_amended ['a'] ['b', 'a']).2.1 (by decide)
